import Mathlib

/-!
Verification of the pulse-interval detection and summary statistics of
`make_graph.py` (W7-X adaptive turbulence control report script).

The script's logical core is:

  pulse_active  = df['turbulence'] > 10
  pulse_changes = pulse_active.astype(int).diff()
  pulse_starts  = df['time'][pulse_changes == 1].values
  pulse_ends    = df['time'][pulse_changes == -1].values
  n_pulses      = len(pulse_starts)
  ...
  zip(pulse_starts, pulse_ends)         -- shaded interval pairs
  ...
  (10.0)/n_pulses                       -- mean pulse spacing

Floats are modelled as rationals: the script only compares values to a
threshold and performs one exact division, so no rounding behaviour is
involved.  Pandas `.diff()` yields NaN at the first row; a NaN entry
compares unequal to both `1` and `-1`, which we model as `Option.none`.
`zip` truncates to the shorter of its arguments, as Python's does.
-/

namespace W7X

/-- One row of the input table restricted to the columns the pulse logic
reads: a timestamp and the monitored signal value. -/
structure Sample where
  time : ℚ
  value : ℚ
deriving DecidableEq

/-- `df['turbulence'] > threshold` for one row (the script hardcodes the
threshold `10`; we keep it as a parameter). -/
def activeFlag (thr : ℚ) (s : Sample) : Bool := decide (thr < s.value)

/-- Tail of `astype(int).diff()`: each entry is the integer indicator of the
current flag minus that of the previous flag. -/
def diffTail (prev : Bool) : List Bool → List (Option Int)
  | [] => []
  | b :: r => some ((if b then (1 : Int) else 0) - (if prev then 1 else 0)) :: diffTail b r

/-- `pulse_active.astype(int).diff()`: NaN (here `none`) at the first row,
then successive indicator differences. -/
def indicatorDiff : List Bool → List (Option Int)
  | [] => []
  | b :: r => none :: diffTail b r

/-- `df['time'][mask == v].values`: the timestamps of the rows whose mask
entry equals `some v` (a NaN mask entry matches nothing). -/
def maskTimes (series : List Sample) (mask : List (Option Int)) (v : Int) : List ℚ :=
  ((series.zip mask).filter (fun p => p.2 == some v)).map (fun p => p.1.time)

/-- `pulse_starts`: timestamps where the indicator diff equals `1`
(rising edges of the activity flag). -/
def pulse_starts (series : List Sample) (thr : ℚ) : List ℚ :=
  maskTimes series (indicatorDiff (series.map (activeFlag thr))) 1

/-- `pulse_ends`: timestamps where the indicator diff equals `-1`
(falling edges of the activity flag). -/
def pulse_ends (series : List Sample) (thr : ℚ) : List ℚ :=
  maskTimes series (indicatorDiff (series.map (activeFlag thr))) (-1)

/-- `n_pulses = len(pulse_starts)`, the pulse count the script reports. -/
def n_pulses (series : List Sample) (thr : ℚ) : ℕ :=
  (pulse_starts series thr).length

/-- `zip(pulse_starts, pulse_ends)`: the start/end pairs the script shades;
like Python's `zip` this truncates to the shorter list. -/
def pulse_intervals (series : List Sample) (thr : ℚ) : List (ℚ × ℚ) :=
  (pulse_starts series thr).zip (pulse_ends series thr)

/-- Error taxonomy of the specification (§7). -/
inductive AnalyzerError where
  | InvalidInput
  | DivisionUndefined
deriving DecidableEq

/-- Embeds the script's summary-statistics computation.  The script prints
the count `n_pulses` and the mean spacing `(10.0)/n_pulses`, with the total
duration hardcoded as `10.0`; here it is the `total_duration` argument.
Python raises `ZeroDivisionError` on `10.0/0`, an explicit error signal
(not an infinity), modelled as `Except.error DivisionUndefined`. -/
def summarize (total_duration : ℚ) (count : ℕ) : Except AnalyzerError (ℕ × ℚ) :=
  if count = 0 then Except.error AnalyzerError.DivisionUndefined
  else Except.ok (count, total_duration / (count : ℚ))

/-- Direct recursion computing the rising-edge timestamps of the samples in
`l`, given the activity flag `prev` of the sample preceding `l`.  A rising
edge is a sample whose flag is `true` while the previous flag is `false`;
this is what `pulse_changes == 1` selects on the tail of the series. -/
def rises (thr : ℚ) : Bool → List Sample → List ℚ
  | _, [] => []
  | prev, s :: l =>
    if activeFlag thr s && !prev then s.time :: rises thr (activeFlag thr s) l
    else rises thr (activeFlag thr s) l

/-- Direct recursion computing the falling-edge timestamps of the samples in
`l`, given the activity flag `prev` of the sample preceding `l`; this is
what `pulse_changes == -1` selects on the tail of the series. -/
def falls (thr : ℚ) : Bool → List Sample → List ℚ
  | _, [] => []
  | prev, s :: l =>
    if !activeFlag thr s && prev then s.time :: falls thr (activeFlag thr s) l
    else falls thr (activeFlag thr s) l

/-- Activity flag of the last sample of `l`, or `prev` when `l` is empty. -/
def lastFlag (thr : ℚ) : Bool → List Sample → Bool
  | prev, [] => prev
  | _, s :: l => lastFlag thr (activeFlag thr s) l

/-- Modelled from the spec (§4.1): walk the activity flags in time order
starting in the inactive state; an inactive→active transition at a sample
opens an interval at that sample's time, an active→inactive transition
closes it at that sample's time (the first sample after the run).  An
interval still open when the series ends is not emitted, mirroring the
absence of a falling edge (§9 policy (a)).  `pend` is the pending start
time while inside a run. -/
def goRuns (thr : ℚ) : Bool → ℚ → List Sample → List (ℚ × ℚ)
  | _, _, [] => []
  | true, pend, s :: l =>
    if activeFlag thr s then goRuns thr true pend l
    else (pend, s.time) :: goRuns thr false 0 l
  | false, _, s :: l =>
    if activeFlag thr s then goRuns thr true s.time l
    else goRuns thr false 0 l

/-- Modelled from the spec (§4.1): the maximal contiguous active runs of
the series, each reported as (time of the run's first active sample, time
of the first inactive sample after the run), unterminated final run
dropped. -/
def runIntervals (thr : ℚ) (series : List Sample) : List (ℚ × ℚ) :=
  goRuns thr false 0 series

/-- The concrete scenario series of the specification (§8):
`[(0,1),(1,1),(2,15),(3,15),(4,1),(5,20),(6,1)]`. -/
def scenarioSeries : List Sample :=
  [⟨0, 1⟩, ⟨1, 1⟩, ⟨2, 15⟩, ⟨3, 15⟩, ⟨4, 1⟩, ⟨5, 20⟩, ⟨6, 1⟩]

/-- A series whose last sample is active: the final run is never closed. -/
def tailActiveSeries : List Sample := [⟨0, 1⟩, ⟨1, 20⟩]

/-- A series whose first sample is active: the leading run has no rising
edge (the indicator diff at the first row is NaN), so the zip mispairs
starts with ends. -/
def headActiveSeries : List Sample := [⟨0, 20⟩, ⟨1, 1⟩, ⟨2, 15⟩, ⟨3, 1⟩]

/-- A series entirely above threshold 10. -/
def allActiveSeries : List Sample := [⟨0, 15⟩, ⟨1, 20⟩]

/-- A series entirely at or below threshold 10. -/
def allLowSeries : List Sample := [⟨0, 1⟩, ⟨1, 2⟩]

/-- A series with decreasing timestamps (non-monotonic time). -/
def nonMonoSeries : List Sample := [⟨5, 20⟩, ⟨3, 1⟩]

/-- A series starting inactive and ending active. -/
def endActiveSeries : List Sample := [⟨0, 1⟩, ⟨1, 20⟩, ⟨2, 25⟩]

/-- Interval membership: the half-open reading `start ≤ t < end` is the one
under which a closing boundary (the first inactive sample after a run) is
outside the interval, as the data-model invariant (§3) requires. -/
def containsTime (p : ℚ × ℚ) (t : ℚ) : Bool := decide (p.1 ≤ t ∧ t < p.2)

/-- C1: For the series [(0,1),(1,1),(2,15),(3,15),(4,1),(5,20),(6,1)] with
threshold 10, interval detection returns exactly the intervals
[(2,4),(5,6)] and a pulse count of 2. -/
theorem c1_concrete_scenario :
    pulse_intervals scenarioSeries 10 = [(2, 4), (5, 6)] ∧
      n_pulses scenarioSeries 10 = 2 := by
  constructor <;> rfl

/-- Filtering the zipped indicator-diff tail for value `1` selects exactly
the rising edges. -/
theorem filter_diffTail_one (thr : ℚ) :
    ∀ (l : List Sample) (prev : Bool),
      ((l.zip (diffTail prev (l.map (activeFlag thr)))).filter
          (fun p => p.2 == some 1)).map (fun p => p.1.time)
        = rises thr prev l := by
  intro l
  induction l with
  | nil => intro prev; rfl
  | cons s l ih =>
    intro prev
    cases ha : activeFlag thr s <;> cases prev <;>
      simp [diffTail, rises, ha, ih]

/-- Filtering the zipped indicator-diff tail for value `-1` selects exactly
the falling edges. -/
theorem filter_diffTail_neg_one (thr : ℚ) :
    ∀ (l : List Sample) (prev : Bool),
      ((l.zip (diffTail prev (l.map (activeFlag thr)))).filter
          (fun p => p.2 == some (-1))).map (fun p => p.1.time)
        = falls thr prev l := by
  intro l
  induction l with
  | nil => intro prev; rfl
  | cons s l ih =>
    intro prev
    cases ha : activeFlag thr s <;> cases prev <;>
      simp [diffTail, falls, ha, ih]

/-- `pulse_starts` on a nonempty series is the rising-edge recursion over
the tail, seeded with the first sample's flag (the NaN diff entry of the
first row selects nothing). -/
theorem pulse_starts_cons (thr : ℚ) (s : Sample) (l : List Sample) :
    pulse_starts (s :: l) thr = rises thr (activeFlag thr s) l := by
  unfold pulse_starts maskTimes indicatorDiff
  simpa using filter_diffTail_one thr l (activeFlag thr s)

/-- `pulse_ends` on a nonempty series is the falling-edge recursion over
the tail, seeded with the first sample's flag. -/
theorem pulse_ends_cons (thr : ℚ) (s : Sample) (l : List Sample) :
    pulse_ends (s :: l) thr = falls thr (activeFlag thr s) l := by
  unfold pulse_ends maskTimes indicatorDiff
  simpa using filter_diffTail_neg_one thr l (activeFlag thr s)

/-- Zipping the rising edges with the falling edges yields exactly the runs
of the state machine `goRuns`; while inside a run (`prev = true`) the
pending start must be prepended to the rising edges. -/
theorem zip_rises_falls (thr : ℚ) :
    ∀ (l : List Sample) (prev : Bool) (pend : ℚ),
      (cond prev (pend :: rises thr true l) (rises thr false l)).zip
          (falls thr prev l)
        = goRuns thr prev pend l := by
  intro l
  induction l with
  | nil => intro prev pend; cases prev <;> simp [rises, falls, goRuns]
  | cons s l ih =>
    intro prev pend
    cases ha : activeFlag thr s <;> cases prev <;>
      simp [rises, falls, goRuns, ha]
    · simpa using ih false 0
    · simpa using ih false 0
    · simpa using ih true s.time
    · simpa using ih true pend

/-- Edge balance: the rising-edge count (plus one if already inside a run)
equals the falling-edge count (plus one if the last sample leaves the
series inside a run). -/
theorem rises_falls_length (thr : ℚ) :
    ∀ (l : List Sample) (prev : Bool),
      (rises thr prev l).length + (cond prev 1 0)
        = (falls thr prev l).length + (cond (lastFlag thr prev l) 1 0) := by
  intro l
  induction l with
  | nil => intro prev; cases prev <;> rfl
  | cons s l ih =>
    intro prev
    have h := ih (activeFlag thr s)
    cases hl : lastFlag thr (activeFlag thr s) l <;>
      cases ha : activeFlag thr s <;> rw [ha] at h hl <;> rw [hl] at h <;>
      cases prev <;>
      simp [rises, falls, lastFlag, ha, hl] at h ⊢ <;> omega

/-- Every interval emitted by `goRuns` ends at a sample time of the
remaining list, and starts either at the pending start (when already
inside a run) or at a sample time of the remaining list. -/
theorem goRuns_bounds (thr : ℚ) :
    ∀ (l : List Sample) (prev : Bool) (pend a b : ℚ),
      (a, b) ∈ goRuns thr prev pend l →
        b ∈ l.map Sample.time ∧
          ((prev = true ∧ a = pend) ∨ a ∈ l.map Sample.time) := by
  intro l
  induction l with
  | nil => intro prev pend a b h; simp [goRuns] at h
  | cons s l ih =>
    intro prev pend a b h
    cases ha : activeFlag thr s <;> cases prev <;>
      rw [goRuns, ha] at h
    · rcases ih false 0 a b h with ⟨hb, hA⟩
      refine ⟨List.mem_cons_of_mem _ hb, ?_⟩
      rcases hA with ⟨hfalse, _⟩ | hmem
      · exact absurd hfalse (by simp)
      · exact Or.inr (List.mem_cons_of_mem _ hmem)
    · rcases List.mem_cons.mp h with heq | hmem
      · refine ⟨?_, ?_⟩
        · simp [Prod.ext_iff] at heq
          simp [heq.2]
        · simp [Prod.ext_iff] at heq
          exact Or.inl ⟨rfl, heq.1⟩
      · rcases ih false 0 a b hmem with ⟨hb, hA⟩
        refine ⟨List.mem_cons_of_mem _ hb, ?_⟩
        rcases hA with ⟨hfalse, _⟩ | hmemA
        · exact absurd hfalse (by simp)
        · exact Or.inr (List.mem_cons_of_mem _ hmemA)
    · rcases ih true s.time a b h with ⟨hb, hA⟩
      refine ⟨List.mem_cons_of_mem _ hb, ?_⟩
      rcases hA with ⟨_, hpend⟩ | hmem
      · exact Or.inr (by simp [hpend])
      · exact Or.inr (List.mem_cons_of_mem _ hmem)
    · rcases ih true pend a b h with ⟨hb, hA⟩
      refine ⟨List.mem_cons_of_mem _ hb, ?_⟩
      rcases hA with ⟨_, hpend⟩ | hmem
      · exact Or.inl ⟨rfl, hpend⟩
      · exact Or.inr (List.mem_cons_of_mem _ hmem)

/-- With strictly increasing sample times (and, when already inside a run,
a pending start preceding all remaining samples), the runs emitted by
`goRuns` are ordered: each interval ends strictly before the next one
starts, and each has `start < end`. -/
theorem goRuns_sorted (thr : ℚ) :
    ∀ (l : List Sample) (prev : Bool) (pend : ℚ),
      l.Pairwise (fun x y => x.time < y.time) →
      (prev = true → ∀ s ∈ l, pend < s.time) →
      (goRuns thr prev pend l).Pairwise (fun p q => p.2 < q.1) ∧
        ∀ p ∈ goRuns thr prev pend l, p.1 < p.2 := by
  intro l
  induction l with
  | nil => intro prev pend _ _; constructor <;> simp [goRuns]
  | cons s l ih =>
    intro prev pend hp hlb
    rcases List.pairwise_cons.mp hp with ⟨hs, hp'⟩
    cases ha : activeFlag thr s <;> cases prev <;> rw [goRuns, ha]
    · exact ih false 0 hp' (by simp)
    · rcases ih false 0 hp' (by simp) with ⟨ihp, ihlt⟩
      rw [if_neg (by simp)]
      refine ⟨List.pairwise_cons.mpr ⟨?_, ihp⟩, ?_⟩
      · intro q hq
        rcases goRuns_bounds thr l false 0 q.1 q.2 (by simpa using hq) with ⟨_, hA⟩
        rcases hA with ⟨hfalse, _⟩ | hmem
        · exact absurd hfalse (by simp)
        · rcases List.mem_map.mp hmem with ⟨x, hxl, hxt⟩
          show s.time < q.1
          rw [← hxt]
          exact hs x hxl
      · intro p hp0
        rcases List.mem_cons.mp hp0 with heq | hmem
        · rw [heq]
          exact hlb rfl s (List.mem_cons_self s l)
        · exact ihlt p hmem
    · rw [if_pos rfl]
      exact ih true s.time hp' (fun _ x hx => hs x hx)
    · rw [if_pos rfl]
      exact ih true pend hp' (fun _ x hx => hlb rfl x (List.mem_cons_of_mem s hx))

/-- A time below every remaining sample time lies in no interval emitted by
`goRuns` from the outside-a-run state. -/
theorem countP_goRuns_below (thr : ℚ) (l : List Sample) (pend t : ℚ)
    (h : ∀ s ∈ l, t < s.time) :
    (goRuns thr false pend l).countP (fun p => containsTime p t) = 0 := by
  apply List.countP_eq_zero.mpr
  intro p hpmem
  rcases goRuns_bounds thr l false pend p.1 p.2 (by simpa using hpmem) with ⟨_, hA⟩
  rcases hA with ⟨hfalse, _⟩ | hmem
  · exact absurd hfalse (by simp)
  · rcases List.mem_map.mp hmem with ⟨x, hxl, hxt⟩
    have hlt : t < p.1 := hxt ▸ h x hxl
    simp only [containsTime, decide_eq_true_eq, not_and, not_lt]
    intro hle
    exact absurd hle (not_le.mpr hlt)

/-- Membership counts for the runs of `goRuns`: under strictly increasing
times, a pending start below all remaining times (when inside a run), and a
series ending inactive, every active sample's time lies in exactly one
emitted interval and every inactive sample's time in none; moreover, while
inside a run, any time between the pending start and the remaining samples
lies in exactly one emitted interval. -/
theorem goRuns_countP (thr : ℚ) :
    ∀ (l : List Sample) (prev : Bool) (pend : ℚ),
      l.Pairwise (fun x y => x.time < y.time) →
      (prev = true → ∀ s ∈ l, pend < s.time) →
      lastFlag thr prev l = false →
      (∀ x ∈ l, (goRuns thr prev pend l).countP (fun p => containsTime p x.time)
          = cond (activeFlag thr x) 1 0) ∧
      (prev = true → ∀ t : ℚ, pend ≤ t → (∀ s ∈ l, t < s.time) →
        (goRuns thr prev pend l).countP (fun p => containsTime p t) = 1) := by
  intro l
  induction l with
  | nil =>
    intro prev pend _ _ hl
    rw [lastFlag] at hl
    subst hl
    refine ⟨fun x hx => absurd hx (List.not_mem_nil x), fun h => absurd h (by simp)⟩
  | cons s l ih =>
    intro prev pend hp hlb hl
    rcases List.pairwise_cons.mp hp with ⟨hs, hp'⟩
    rw [lastFlag] at hl
    cases ha : activeFlag thr s <;> rw [ha] at hl <;> cases prev <;> rw [goRuns, ha]
    · -- inactive sample, outside a run
      rw [if_neg (by simp)]
      refine ⟨?_, fun h => absurd h (by simp)⟩
      intro x hx
      rcases List.mem_cons.mp hx with heq | hmem
      · subst heq
        rw [ha, countP_goRuns_below thr l 0 x.time hs]
        rfl
      · exact (ih false 0 hp' (by simp) hl).1 x hmem
    · -- inactive sample, inside a run: close the pending interval here
      rw [if_neg (by simp)]
      have ihl := ih false 0 hp' (by simp) hl
      refine ⟨?_, ?_⟩
      · intro x hx
        rcases List.mem_cons.mp hx with heq | hmem
        · subst heq
          rw [ha, List.countP_cons, countP_goRuns_below thr l 0 x.time hs]
          simp [containsTime]
        · rw [List.countP_cons, (ihl).1 x hmem]
          have hxs : s.time < x.time := hs x hmem
          simp only [containsTime, decide_eq_true_eq]
          rw [if_neg (by rintro ⟨-, hc⟩; exact absurd hc (not_lt.mpr hxs.le))]
          exact Nat.add_zero _
      · intro _ t hpt hub
        rw [List.countP_cons, countP_goRuns_below thr l 0 t
            (fun x hx => lt_trans (hub s (List.mem_cons_self s l)) (hs x hx))]
        simp only [containsTime, decide_eq_true_eq]
        rw [if_pos ⟨hpt, hub s (List.mem_cons_self s l)⟩]
    · -- active sample, outside a run: open at s.time
      rw [if_pos rfl]
      have ihl := ih true s.time hp' (fun _ x hx => hs x hx) hl
      refine ⟨?_, fun h => absurd h (by simp)⟩
      intro x hx
      rcases List.mem_cons.mp hx with heq | hmem
      · subst heq
        rw [ha]
        exact ihl.2 rfl x.time le_rfl hs
      · exact ihl.1 x hmem
    · -- active sample, inside a run
      rw [if_pos rfl]
      have hlb' : ∀ x ∈ l, pend < x.time :=
        fun x hx => hlb rfl x (List.mem_cons_of_mem s hx)
      have ihl := ih true pend hp' (fun _ => hlb') hl
      refine ⟨?_, ?_⟩
      · intro x hx
        rcases List.mem_cons.mp hx with heq | hmem
        · subst heq
          rw [ha]
          exact ihl.2 rfl x.time (hlb rfl x (List.mem_cons_self x l)).le hs
        · exact ihl.1 x hmem
      · intro _ t hpt hub
        exact ihl.2 rfl t hpt (fun x hx => hub x (List.mem_cons_of_mem s hx))

/-- If the last sample of a nonempty series is at or below the threshold,
the final activity flag is `false`, whatever the seed. -/
theorem lastFlag_cons_of_le (thr : ℚ) :
    ∀ (l : List Sample) (s : Sample) (prev : Bool),
      (∀ z ∈ (s :: l).getLast?, z.value ≤ thr) →
      lastFlag thr prev (s :: l) = false := by
  intro l
  induction l with
  | nil =>
    intro s prev h
    have hs := h s (by simp)
    simp [lastFlag, activeFlag, not_lt.mpr hs]
  | cons t l ih =>
    intro s prev h
    rw [lastFlag]
    exact ih t (activeFlag thr s) (by simpa [List.getLast?_cons_cons] using h)

/-- If the last sample of a nonempty series is above the threshold, the
final activity flag is `true`, whatever the seed. -/
theorem lastFlag_cons_of_gt (thr : ℚ) :
    ∀ (l : List Sample) (s : Sample) (prev : Bool),
      (∀ z ∈ (s :: l).getLast?, thr < z.value) →
      lastFlag thr prev (s :: l) = true := by
  intro l
  induction l with
  | nil =>
    intro s prev h
    have hs := h s (by simp)
    simp [lastFlag, activeFlag, hs]
  | cons t l ih =>
    intro s prev h
    rw [lastFlag]
    exact ih t (activeFlag thr s) (by simpa [List.getLast?_cons_cons] using h)

/-- On a series whose first sample is inactive, the zipped start/end pairs
of the script coincide with the run state machine started outside a run on
the tail. -/
theorem pulse_intervals_eq_goRuns (thr : ℚ) (s0 : Sample) (l : List Sample)
    (h0 : activeFlag thr s0 = false) :
    pulse_intervals (s0 :: l) thr = goRuns thr false 0 l := by
  rw [pulse_intervals, pulse_starts_cons, pulse_ends_cons, h0]
  simpa using zip_rises_falls thr l false 0

/-- On a series whose first sample is inactive, the spec-modelled maximal
runs are those of the state machine on the tail. -/
theorem runIntervals_cons_inactive (thr : ℚ) (s0 : Sample) (l : List Sample)
    (h0 : activeFlag thr s0 = false) :
    runIntervals thr (s0 :: l) = goRuns thr false 0 l := by
  rw [runIntervals, goRuns, h0, if_neg (by simp)]

/-- A tail whose samples are all active produces no edges at all when the
seed flag is already active. -/
theorem rises_falls_all_active (thr : ℚ) :
    ∀ (l : List Sample), (∀ s ∈ l, activeFlag thr s = true) →
      rises thr true l = [] ∧ falls thr true l = [] := by
  intro l
  induction l with
  | nil => intro _; exact ⟨rfl, rfl⟩
  | cons s l ih =>
    intro h
    have hs := h s (List.mem_cons_self s l)
    have ih' := ih (fun x hx => h x (List.mem_cons_of_mem s hx))
    rw [rises, falls, hs]
    simpa using ih'

/-- A tail whose samples are all inactive produces no edges at all when the
seed flag is inactive. -/
theorem rises_falls_all_inactive (thr : ℚ) :
    ∀ (l : List Sample), (∀ s ∈ l, activeFlag thr s = false) →
      rises thr false l = [] ∧ falls thr false l = [] := by
  intro l
  induction l with
  | nil => intro _; exact ⟨rfl, rfl⟩
  | cons s l ih =>
    intro h
    have hs := h s (List.mem_cons_self s l)
    have ih' := ih (fun x hx => h x (List.mem_cons_of_mem s hx))
    rw [rises, falls, hs]
    simpa using ih'

/-- C2 (counterexample): in the series [(0,1),(1,20)] with threshold 10 the
sample (1,20) is above the threshold, yet the detection returns no
intervals at all (the final active run has no falling edge), so that
sample falls inside no returned interval — refuting the claim for
arbitrary series. -/
theorem c2_counterexample :
    (10 : ℚ) < 20 ∧ (⟨1, 20⟩ : Sample) ∈ tailActiveSeries ∧
      pulse_intervals tailActiveSeries 10 = [] ∧
      (pulse_intervals tailActiveSeries 10).countP (fun p => containsTime p 1) = 0 := by
  refine ⟨by norm_num, by decide, rfl, rfl⟩

/-- C2 (amended): for every series with strictly increasing times whose
first and last samples are inactive, each sample above the threshold lies
in exactly one returned interval and each sample at or below it in none
(interval membership read as `start ≤ t < end`). -/
theorem c2_sample_membership (thr : ℚ) (s0 : Sample) (l : List Sample)
    (hmono : (s0 :: l).Pairwise (fun a b => a.time < b.time))
    (hfirst : s0.value ≤ thr)
    (hlast : ∀ z ∈ (s0 :: l).getLast?, z.value ≤ thr) :
    ∀ x ∈ s0 :: l,
      (pulse_intervals (s0 :: l) thr).countP (fun p => containsTime p x.time)
        = if thr < x.value then 1 else 0 := by
  have h0 : activeFlag thr s0 = false := by
    simp [activeFlag, not_lt.mpr hfirst]
  rcases List.pairwise_cons.mp hmono with ⟨hs, hp'⟩
  have hl : lastFlag thr false l = false := by
    cases l with
    | nil => rfl
    | cons t l' =>
      exact lastFlag_cons_of_le thr l' t false
        (by simpa [List.getLast?_cons_cons] using hlast)
  rw [pulse_intervals_eq_goRuns thr s0 l h0]
  intro x hx
  rcases List.mem_cons.mp hx with heq | hmem
  · subst heq
    rw [countP_goRuns_below thr l 0 x.time hs, if_neg (not_lt.mpr hfirst)]
  · rw [(goRuns_countP thr l false 0 hp' (by simp) hl).1 x hmem]
    by_cases hv : thr < x.value
    · rw [if_pos hv]
      simp [activeFlag, hv]
    · rw [if_neg hv]
      simp [activeFlag, hv]

/-- Witness for C2 (amended) at the concrete scenario series: the active
sample at time 2 lies in exactly one interval. -/
theorem c2_sample_membership_witness :
    (pulse_intervals scenarioSeries 10).countP (fun p => containsTime p 2) = 1 := by
  have h := c2_sample_membership 10 ⟨0, 1⟩
      [⟨1, 1⟩, ⟨2, 15⟩, ⟨3, 15⟩, ⟨4, 1⟩, ⟨5, 20⟩, ⟨6, 1⟩]
      (by decide) (by norm_num)
      (by
        intro z hz
        simp only [List.getLast?_cons_cons, List.getLast?_singleton, Option.mem_def,
          Option.some.injEq] at hz
        subst hz
        norm_num)
      ⟨2, 15⟩ (by decide)
  rw [if_pos (by norm_num : (10 : ℚ) < 15)] at h
  exact h

/-- C3 (counterexample): the series [(0,20),(1,1),(2,15),(3,1)] has
strictly increasing times, yet with threshold 10 the detection returns the
single pair (2,1) whose start exceeds its end: the leading active run has
no rising edge, so the zip pairs the second run's start with the first
run's end. -/
theorem c3_counterexample :
    pulse_intervals headActiveSeries 10 = [(2, 1)] ∧ ¬((2 : ℚ) < 1) :=
  ⟨rfl, by norm_num⟩

/-- C3 (amended): for every series with strictly increasing times whose
first sample is inactive, the returned intervals are sorted by start,
pairwise non-overlapping (each ends strictly before the next starts), and
each satisfies start < end. -/
theorem c3_sorted_disjoint (thr : ℚ) (s0 : Sample) (l : List Sample)
    (hmono : (s0 :: l).Pairwise (fun a b => a.time < b.time))
    (hfirst : s0.value ≤ thr) :
    (pulse_intervals (s0 :: l) thr).Pairwise (fun p q => p.1 < q.1 ∧ p.2 < q.1) ∧
      ∀ p ∈ pulse_intervals (s0 :: l) thr, p.1 < p.2 := by
  have h0 : activeFlag thr s0 = false := by
    simp [activeFlag, not_lt.mpr hfirst]
  rcases List.pairwise_cons.mp hmono with ⟨hs, hp'⟩
  rw [pulse_intervals_eq_goRuns thr s0 l h0]
  rcases goRuns_sorted thr l false 0 hp' (by simp) with ⟨hpw, hlt⟩
  refine ⟨hpw.imp_of_mem ?_, hlt⟩
  intro p q hp hq hpq
  exact ⟨lt_trans (hlt p hp) hpq, hpq⟩

/-- Witness for C3 (amended) at the concrete scenario series. -/
theorem c3_sorted_disjoint_witness :
    (pulse_intervals scenarioSeries 10).Pairwise (fun p q => p.1 < q.1 ∧ p.2 < q.1) ∧
      (2 : ℚ) < 4 ∧ (5 : ℚ) < 6 := by
  rcases c3_sorted_disjoint 10 ⟨0, 1⟩
      [⟨1, 1⟩, ⟨2, 15⟩, ⟨3, 15⟩, ⟨4, 1⟩, ⟨5, 20⟩, ⟨6, 1⟩]
      (by decide) (by norm_num) with ⟨hpw, hlt⟩
  exact ⟨hpw, hlt (2, 4) (by decide), hlt (5, 6) (by decide)⟩

/-- C4 (counterexample): the series [(0,1),(1,20),(2,25)] ends active; no
falling edge is emitted, so the shaded pairs are empty — yet the reported
pulse count `n_pulses = len(pulse_starts)` is 1, not 0: the unterminated
interval is dropped from the shaded regions but NOT from the pulse
count. -/
theorem c4_counterexample :
    n_pulses endActiveSeries 10 = 1 ∧ pulse_intervals endActiveSeries 10 = [] :=
  ⟨rfl, rfl⟩

/-- C4 (amended): for every series whose first sample is inactive and whose
last sample is active, the detection emits one fewer falling edge than
rising edges (none for the final active run), so the final interval is
dropped from the zipped shaded pairs, but its rising edge still counts in
`n_pulses`, which exceeds the number of shaded pairs by one. -/
theorem c4_trailing_run (thr : ℚ) (s0 : Sample) (l : List Sample)
    (hfirst : s0.value ≤ thr)
    (hlast : ∀ z ∈ (s0 :: l).getLast?, thr < z.value) :
    (pulse_ends (s0 :: l) thr).length + 1 = (pulse_starts (s0 :: l) thr).length ∧
      n_pulses (s0 :: l) thr = (pulse_intervals (s0 :: l) thr).length + 1 := by
  have h0 : activeFlag thr s0 = false := by
    simp [activeFlag, not_lt.mpr hfirst]
  cases l with
  | nil =>
    exfalso
    have hgt := hlast s0 (by simp)
    exact absurd hgt (not_lt.mpr hfirst)
  | cons t l' =>
    have hl : lastFlag thr false (t :: l') = true :=
      lastFlag_cons_of_gt thr l' t false
        (by simpa [List.getLast?_cons_cons] using hlast)
    have e1 : pulse_starts (s0 :: t :: l') thr = rises thr false (t :: l') := by
      rw [pulse_starts_cons, h0]
    have e2 : pulse_ends (s0 :: t :: l') thr = falls thr false (t :: l') := by
      rw [pulse_ends_cons, h0]
    have hlen := rises_falls_length thr (t :: l') false
    rw [hl] at hlen
    simp only [cond_false, cond_true, Nat.add_zero] at hlen
    constructor
    · rw [e1, e2]
      omega
    · simp only [n_pulses, pulse_intervals, e1, e2, List.length_zip]
      omega

/-- Witness for C4 (amended) at the series [(0,1),(1,20),(2,25)]. -/
theorem c4_trailing_run_witness :
    (pulse_ends endActiveSeries 10).length + 1 = (pulse_starts endActiveSeries 10).length ∧
      n_pulses endActiveSeries 10 = (pulse_intervals endActiveSeries 10).length + 1 := by
  exact c4_trailing_run 10 ⟨0, 1⟩ [⟨1, 20⟩, ⟨2, 25⟩] (by norm_num)
    (by
      intro z hz
      simp only [List.getLast?_cons_cons, List.getLast?_singleton, Option.mem_def,
        Option.some.injEq] at hz
      subst hz
      norm_num)

/-- C5 (counterexample): the source's detection performs no input
validation: on the empty series it returns empty edge lists and a count of
0 instead of failing with `InvalidInput`, and a series with decreasing
times is processed without any error. -/
theorem c5_counterexample :
    pulse_intervals ([] : List Sample) 10 = [] ∧ n_pulses ([] : List Sample) 10 = 0 ∧
      pulse_starts nonMonoSeries 10 = [] ∧ pulse_ends nonMonoSeries 10 = [3] :=
  ⟨rfl, rfl, rfl, rfl⟩

/-- C5 (amended): the source's detection is a total function with no
failure modes: an empty series yields no edges, no intervals and count 0,
and non-increasing times are not checked (the script's only failure mode
is the unguarded division in the summary when the count is 0). -/
theorem c5_no_input_validation (thr : ℚ) :
    pulse_starts ([] : List Sample) thr = [] ∧ pulse_ends ([] : List Sample) thr = [] ∧
      pulse_intervals ([] : List Sample) thr = [] ∧ n_pulses ([] : List Sample) thr = 0 :=
  ⟨rfl, rfl, rfl, rfl⟩

/-- C6: when the detected interval count is 0, the mean-spacing computation
fails with an explicit `DivisionUndefined` signal (Python's
`ZeroDivisionError` on the unguarded `10.0/n_pulses`) rather than
returning infinity. -/
theorem c6_division_undefined (total_duration : ℚ) :
    summarize total_duration 0 = Except.error AnalyzerError.DivisionUndefined := rfl

/-- C7 (counterexample): the series [(0,15),(1,20)] is entirely above
threshold 10, yet the detection returns no interval at all — the indicator
diff is NaN at the first sample, so the leading run has no rising edge,
and no falling edge ever occurs. -/
theorem c7_counterexample :
    ((10 : ℚ) < 15 ∧ (10 : ℚ) < 20) ∧
      pulse_intervals allActiveSeries 10 = [] ∧ n_pulses allActiveSeries 10 = 0 :=
  ⟨⟨by norm_num, by norm_num⟩, rfl, rfl⟩

/-- C7 (amended): for every series entirely above the threshold, the
detection finds no edges at all and returns no intervals and a pulse count
of 0. -/
theorem c7_all_above_threshold (series : List Sample) (thr : ℚ)
    (h : ∀ s ∈ series, thr < s.value) :
    pulse_starts series thr = [] ∧ pulse_ends series thr = [] ∧
      pulse_intervals series thr = [] ∧ n_pulses series thr = 0 := by
  cases series with
  | nil => exact ⟨rfl, rfl, rfl, rfl⟩
  | cons s0 l =>
    have h0 : activeFlag thr s0 = true := by
      simpa [activeFlag] using h s0 (List.mem_cons_self s0 l)
    rcases rises_falls_all_active thr l
        (fun x hx => by simpa [activeFlag] using h x (List.mem_cons_of_mem s0 hx))
      with ⟨hr, hf⟩
    have e1 : pulse_starts (s0 :: l) thr = [] := by rw [pulse_starts_cons, h0, hr]
    have e2 : pulse_ends (s0 :: l) thr = [] := by rw [pulse_ends_cons, h0, hf]
    exact ⟨e1, e2, by simp [pulse_intervals, e1, e2], by simp [n_pulses, e1]⟩

/-- Witness for C7 (amended) at the all-active series [(0,15),(1,20)]. -/
theorem c7_all_above_threshold_witness :
    pulse_starts allActiveSeries 10 = [] ∧ n_pulses allActiveSeries 10 = 0 := by
  rcases c7_all_above_threshold allActiveSeries 10 (by decide) with ⟨h1, -, -, h4⟩
  exact ⟨h1, h4⟩

/-- C8: for every series in which all values are at or below the threshold,
the detection returns no edges, an empty sequence of intervals and a pulse
count of 0. -/
theorem c8_all_below_threshold (series : List Sample) (thr : ℚ)
    (h : ∀ s ∈ series, s.value ≤ thr) :
    pulse_starts series thr = [] ∧ pulse_ends series thr = [] ∧
      pulse_intervals series thr = [] ∧ n_pulses series thr = 0 := by
  cases series with
  | nil => exact ⟨rfl, rfl, rfl, rfl⟩
  | cons s0 l =>
    have h0 : activeFlag thr s0 = false := by
      simp [activeFlag, not_lt.mpr (h s0 (List.mem_cons_self s0 l))]
    rcases rises_falls_all_inactive thr l
        (fun x hx => by
          simp [activeFlag, not_lt.mpr (h x (List.mem_cons_of_mem s0 hx))])
      with ⟨hr, hf⟩
    have e1 : pulse_starts (s0 :: l) thr = [] := by rw [pulse_starts_cons, h0, hr]
    have e2 : pulse_ends (s0 :: l) thr = [] := by rw [pulse_ends_cons, h0, hf]
    exact ⟨e1, e2, by simp [pulse_intervals, e1, e2], by simp [n_pulses, e1]⟩

/-- Witness for C8 at the all-low series [(0,1),(1,2)]. -/
theorem c8_all_below_threshold_witness :
    pulse_intervals allLowSeries 10 = [] ∧ n_pulses allLowSeries 10 = 0 := by
  rcases c8_all_below_threshold allLowSeries 10 (by decide) with ⟨-, -, h3, h4⟩
  exact ⟨h3, h4⟩

/-- C9: for a positive count, `summarize` returns the count together with
`mean_spacing = total_duration / count`. -/
theorem c9_mean_spacing (total_duration : ℚ) (count : ℕ) (h : 0 < count) :
    summarize total_duration count
      = Except.ok (count, total_duration / (count : ℚ)) := by
  rw [summarize, if_neg (Nat.pos_iff_ne_zero.mp h)]

/-- Witness for C9: total_duration 10 and count 2 give mean spacing 5. -/
theorem c9_mean_spacing_witness :
    0 < 2 ∧ summarize 10 2 = Except.ok (2, 5) := by
  refine ⟨by norm_num, ?_⟩
  rw [c9_mean_spacing 10 2 (by norm_num)]
  norm_num

/-- C10: for every series with strictly increasing times whose first and
last samples are inactive, the detection produces equally many start and
end boundaries, and the zipped pairs coincide with the maximal contiguous
active runs — each spanning from the time of the run's first active sample
to the time of the first inactive sample after the run. -/
theorem c10_runs_refinement (thr : ℚ) (s0 : Sample) (l : List Sample)
    (hmono : (s0 :: l).Pairwise (fun a b => a.time < b.time))
    (hfirst : s0.value ≤ thr)
    (hlast : ∀ z ∈ (s0 :: l).getLast?, z.value ≤ thr) :
    (pulse_starts (s0 :: l) thr).length = (pulse_ends (s0 :: l) thr).length ∧
      pulse_intervals (s0 :: l) thr = runIntervals thr (s0 :: l) := by
  have h0 : activeFlag thr s0 = false := by
    simp [activeFlag, not_lt.mpr hfirst]
  have hl : lastFlag thr false l = false := by
    cases l with
    | nil => rfl
    | cons t l' =>
      exact lastFlag_cons_of_le thr l' t false
        (by simpa [List.getLast?_cons_cons] using hlast)
  constructor
  · have hlen := rises_falls_length thr l false
    rw [hl] at hlen
    simp only [cond_false, Nat.add_zero] at hlen
    rw [pulse_starts_cons, pulse_ends_cons, h0, hlen]
  · rw [pulse_intervals_eq_goRuns thr s0 l h0, runIntervals_cons_inactive thr s0 l h0]

/-- Witness for C10 at the concrete scenario series. -/
theorem c10_runs_refinement_witness :
    (pulse_starts scenarioSeries 10).length = (pulse_ends scenarioSeries 10).length ∧
      pulse_intervals scenarioSeries 10 = runIntervals 10 scenarioSeries := by
  exact c10_runs_refinement 10 ⟨0, 1⟩
    [⟨1, 1⟩, ⟨2, 15⟩, ⟨3, 15⟩, ⟨4, 1⟩, ⟨5, 20⟩, ⟨6, 1⟩]
    (by decide) (by norm_num)
    (by
      intro z hz
      simp only [List.getLast?_cons_cons, List.getLast?_singleton, Option.mem_def,
        Option.some.injEq] at hz
      subst hz
      norm_num)

end W7X
